import Mathlib

/-!
Verification development for the pennylane tape-transform and symbolic Sum
operator subsystem.

The deferred-measurement transform is embedded from
src/pennylane/transforms/defer_measurements.py.  The data model of tape
entries (the classes _MidCircuitMeasure and _IfOp, and the controlled
operation produced by qml.ctrl) lives outside src/ and is modelled from the
spec, as is the whole Sum operator (src/ holds only its test suite).
-/

namespace PLVerify

/-- Modelled from the spec: a primitive operation record of the operator
interface.  Only the class tag, the parameter data and the target wires are
consulted by the deferred-measurement transform (op.then_op.__class__,
op.data, op.wires in the source). -/
structure BaseOp where
  className : String
  data : List ℚ
  wires : List ℕ
deriving DecidableEq

/-- Modelled from the spec: one queued entry of a tape.  midMeasure embeds
the class _MidCircuitMeasure; ifOp embeds _IfOp, whose measured_qubit has a
field _dependent_on naming the measured wire (none models a conditional
whose dependency cannot be resolved to a prior marker); ctrlOp embeds the
controlled operation returned by qml.ctrl(op_class, control)(data, wires);
plainOp is any other operation. -/
inductive TapeEntry where
  | midMeasure (wire : ℕ)
  | ifOp (dependentOn : Option ℕ) (thenOp : BaseOp)
  | ctrlOp (control : ℕ) (op : BaseOp)
  | plainOp (op : BaseOp)
deriving DecidableEq

/-- A tape: the ordered, append-only record of queued entries. -/
structure Tape where
  queue : List TapeEntry
deriving DecidableEq

/-- Modelled from the spec: the fatal internal-consistency error of the
deferred-measurement transform (an unresolved conditional dependency). -/
inductive TransformError where
  | malformedTape
deriving DecidableEq

/-- True unless the entry is a conditional with an unresolved dependency. -/
def TapeEntry.resolvedB : TapeEntry → Bool
  | .ifOp none _ => false
  | _ => true

/-- One iteration of the loop body of defer_measurements: a mid-circuit
measurement marker is dropped, a conditional is replaced by the controlled
version of its wrapped operation (same class, data and wires, controlled on
the measured wire), and any other entry is appended unchanged. -/
def deferStep (acc : List TapeEntry) : TapeEntry → Except TransformError (List TapeEntry)
  | .midMeasure _ => .ok acc
  | .ifOp (some control) thenOp => .ok (acc ++ [.ctrlOp control thenOp])
  | .ifOp none _ => .error .malformedTape
  | e => .ok (acc ++ [e])

/-- The accumulation loop of defer_measurements over the queue, building
new_tape_ops left to right. -/
def buildNewOps (acc : List TapeEntry) : List TapeEntry → Except TransformError (List TapeEntry)
  | [] => .ok acc
  | op :: rest =>
      match deferStep acc op with
      | .ok acc' => buildNewOps acc' rest
      | .error e => .error e

/-- The requeue phase of defer_measurements: each computed entry is applied
into a freshly opened tape context (the with-QuantumTape block). -/
def requeue (ops : List TapeEntry) : Tape :=
  ops.foldl (fun t op => ⟨t.queue ++ [op]⟩) ⟨[]⟩

/-- Embedding of defer_measurements from
src/pennylane/transforms/defer_measurements.py: one left-to-right pass over
tape.queue building new_tape_ops, then a requeue into a new tape. -/
def defer_measurements (tape : Tape) : Except TransformError Tape :=
  match buildNewOps [] tape.queue with
  | .ok ops => .ok (requeue ops)
  | .error e => .error e

/-- Specification-side description of one entry's fate under the transform:
markers vanish, resolved conditionals become their controlled version,
everything else is kept unchanged. -/
def deferEntrySpec : TapeEntry → Option TapeEntry
  | .midMeasure _ => none
  | .ifOp d thenOp => some (.ctrlOp (d.getD 0) thenOp)
  | e => some e

/-- An effect of the requeue phase on a store of tape contexts: opening a
new tape context, or applying an entry into the active (last opened)
context. -/
inductive TapeOp where
  | newTape
  | applyEntry (e : TapeEntry)
deriving DecidableEq

/-- Applying an entry appends it to the active (last) tape context of the
store; with no open context it is a no-op. -/
def appendToActive (store : List Tape) (e : TapeEntry) : List Tape :=
  match store with
  | [] => []
  | t :: ts => if ts.isEmpty then [⟨t.queue ++ [e]⟩] else t :: appendToActive ts e

/-- Running a sequence of tape effects over a store of tape contexts. -/
def runTapeOps (store : List Tape) : List TapeOp → List Tape
  | [] => store
  | .newTape :: rest => runTapeOps (store ++ [⟨[]⟩]) rest
  | .applyEntry e :: rest => runTapeOps (appendToActive store e) rest

/-- The effect trace of defer_measurements: the new entries are computed by
pure reads of the input tape, then a fresh context is opened and the
entries are applied into it, never into the input tape. -/
def deferProgram (tape : Tape) : Except TransformError (List TapeOp) :=
  match buildNewOps [] tape.queue with
  | .ok ops => .ok (.newTape :: ops.map .applyEntry)
  | .error e => .error e

/-! Scalar field for exact matrix entries.  The gates exercised by the Sum
test suite that the claims mention (PauliX, PauliZ, Hadamard, Identity)
have entries in the quadratic field Q(sqrt 2), represented exactly. -/

/-- An element a + b * sqrt 2 of the quadratic field Q(sqrt 2). -/
structure Q2 where
  a : ℚ
  b : ℚ
deriving DecidableEq

namespace Q2

instance : Zero Q2 := ⟨⟨0, 0⟩⟩
instance : One Q2 := ⟨⟨1, 0⟩⟩
instance : Add Q2 := ⟨fun x y => ⟨x.a + y.a, x.b + y.b⟩⟩
instance : Mul Q2 := ⟨fun x y => ⟨x.a * y.a + 2 * (x.b * y.b), x.a * y.b + x.b * y.a⟩⟩
instance : Neg Q2 := ⟨fun x => ⟨-x.a, -x.b⟩⟩

theorem add_def (x y : Q2) : x + y = ⟨x.a + y.a, x.b + y.b⟩ := rfl

theorem mul_def (x y : Q2) :
    x * y = ⟨x.a * y.a + 2 * (x.b * y.b), x.a * y.b + x.b * y.a⟩ := rfl

theorem neg_def (x : Q2) : -x = ⟨-x.a, -x.b⟩ := rfl

theorem zero_def : (0 : Q2) = ⟨0, 0⟩ := rfl

theorem one_def : (1 : Q2) = ⟨1, 0⟩ := rfl

instance : CommRing Q2 where
  nsmul := nsmulRec
  zsmul := zsmulRec
  add_assoc x y z := by
    cases x; cases y; cases z
    simp [add_def, Q2.mk.injEq]; constructor <;> ring
  zero_add x := by cases x; simp [add_def, zero_def]
  add_zero x := by cases x; simp [add_def, zero_def]
  add_comm x y := by
    cases x; cases y
    simp [add_def, Q2.mk.injEq]; constructor <;> ring
  mul_assoc x y z := by
    cases x; cases y; cases z
    simp [mul_def, Q2.mk.injEq]; constructor <;> ring
  one_mul x := by cases x; simp [mul_def, one_def]
  mul_one x := by cases x; simp [mul_def, one_def]
  left_distrib x y z := by
    cases x; cases y; cases z
    simp [mul_def, add_def, Q2.mk.injEq]; constructor <;> ring
  right_distrib x y z := by
    cases x; cases y; cases z
    simp [mul_def, add_def, Q2.mk.injEq]; constructor <;> ring
  zero_mul x := by cases x; simp [mul_def, zero_def]
  mul_zero x := by cases x; simp [mul_def, zero_def]
  mul_comm x y := by
    cases x; cases y
    simp [mul_def, Q2.mk.injEq]; constructor <;> ring
  neg_add_cancel x := by cases x; simp [add_def, neg_def, zero_def]

end Q2

/-! Matrices over the computational basis of n qubits, indexed the way the
tests index kron: the first wire of the order is the most significant
factor (kron(x, eye(4)) places x on the first wire). -/

/-- A 2^n by 2^n matrix with entries in K. -/
abbrev Mat (n : ℕ) (K : Type) := Fin (2 ^ n) → Fin (2 ^ n) → K

/-- Reduce a natural number into an index of a 2^m-dimensional space. -/
def fin2 (m x : ℕ) : Fin (2 ^ m) := ⟨x % 2 ^ m, Nat.mod_lt _ (Nat.two_pow_pos m)⟩

/-- Element-wise matrix sum. -/
def matAdd {n : ℕ} {K : Type} [Add K] (A B : Mat n K) : Mat n K :=
  fun i j => A i j + B i j

/-- The zero matrix. -/
def matZero {n : ℕ} {K : Type} [Zero K] : Mat n K := fun _ _ => 0

/-- The identity matrix on n qubits. -/
def idMat (n : ℕ) {K : Type} [Zero K] [One K] : Mat n K :=
  fun i j => if i = j then 1 else 0

/-- The Kronecker product, with A on the more significant factor. -/
def kron {m n : ℕ} {K : Type} [Mul K] (A : Mat m K) (B : Mat n K) : Mat (m + n) K :=
  fun i j =>
    A (fin2 m (i.val / 2 ^ n)) (fin2 m (j.val / 2 ^ n)) *
      B (fin2 n i.val) (fin2 n j.val)

/-- The bit of index i belonging to wire slot k of an n-wire order (slot 0
is the most significant). -/
def bitAt (n k i : ℕ) : ℕ := i / 2 ^ (n - 1 - k) % 2

/-- Reading the bits of index i at the listed wire slots, most significant
first, as a number. -/
def gatherBits (n : ℕ) (pos : List ℕ) (i : ℕ) : ℕ :=
  pos.foldl (fun acc k => 2 * acc + bitAt n k i) 0

/-- Modelled from the spec: expansion of a summand matrix onto a full wire
order (math.expand_matrix, not under src/).  pos lists the slots of the
summand's wires within the target order; slots outside pos carry an
implicit identity factor, so an entry is nonzero only when row and column
agree on every slot outside pos, and then equals the summand entry at the
gathered bits. -/
def expandMat {m : ℕ} {K : Type} [Zero K] (n : ℕ) (pos : List ℕ) (M : Mat m K) : Mat n K :=
  fun i j =>
    if ((List.range n).all fun k => pos.contains k ||
        (bitAt n k i.val == bitAt n k j.val)) then
      M (fin2 m (gatherBits n pos i.val)) (fin2 m (gatherBits n pos j.val))
    else 0

/-! The operator interface and the Sum operator.  The Sum implementation is
not under src/ (only its test suite is); every definition below is modelled
from the spec, sections 3, 4.1 and 4.2. -/

/-- Modelled from the spec: the operator interface.  An operator has a
class tag, wires (an ordered set, no duplicates within one operator),
parameters, a hermiticity flag, and a matrix over its wires on demand; mat
is none for operators with no matrix representation (barriers, wire cuts),
whose matrix() raises MatrixUndefined. -/
structure Operator (K : Type) where
  name : String
  wires : List ℕ
  params : List ℚ
  hermitian : Bool
  mat : Option (Mat wires.length K)

/-- Modelled from the spec: a Sum owns an ordered sequence of summand
operators and an optional identifier.  The queue-on-construction flag of
the constructor only touches the queuing context, not the object. -/
structure Sum (K : Type) where
  summands : List (Operator K)
  id : Option String

/-- The union of the summands' wires, deduplicated, order-preserving by
first occurrence. -/
def unionWires {K : Type} (ops : List (Operator K)) : List ℕ :=
  ops.foldl (fun acc op => acc ++ op.wires.filter (fun w => decide (w ∉ acc))) []

/-- Wires of a Sum: first-occurrence union of summand wires. -/
def Sum.wires {K : Type} (s : Sum K) : List ℕ := unionWires s.summands

/-- Number of wires of a Sum. -/
def Sum.num_wires {K : Type} (s : Sum K) : ℕ := s.wires.length

/-- Parameters of a Sum: the summands' parameters in order. -/
def Sum.parameters {K : Type} (s : Sum K) : List ℚ :=
  (s.summands.map (fun op => op.params)).flatten

/-- Number of parameters of a Sum. -/
def Sum.num_params {K : Type} (s : Sum K) : ℕ := s.parameters.length

/-- Hermiticity of a Sum: the conjunction over the summands. -/
def Sum.is_hermitian {K : Type} (s : Sum K) : Bool :=
  s.summands.all (fun op => op.hermitian)

/-- The matrix of one summand expanded onto a target wire order: its wires
are located within the order and the matrix is embedded there, identity on
the remaining wires; none when the summand has no matrix. -/
def expandOnOrder {K : Type} [Zero K] (ord : List ℕ) (op : Operator K) :
    Option (Mat ord.length K) :=
  op.mat.map (fun M => expandMat ord.length (op.wires.map (fun w => ord.indexOf w)) M)

/-- The expanded matrices of all summands in order; none (MatrixUndefined)
as soon as one summand has no matrix. -/
def traverseExpand {K : Type} [Zero K] (ord : List ℕ) :
    List (Operator K) → Option (List (Mat ord.length K))
  | [] => some []
  | op :: rest =>
      match expandOnOrder ord op, traverseExpand ord rest with
      | some E, some es => some (E :: es)
      | _, _ => none

/-- Modelled from the spec: the matrix of a sum of operators over a wire
order: each summand's matrix expanded onto the order, then summed
element-wise, accumulating left to right; none (MatrixUndefined) as soon
as one summand has no matrix. -/
def sumMatOn {K : Type} [Add K] [Zero K] (ops : List (Operator K)) (ord : List ℕ) :
    Option (Mat ord.length K) :=
  (traverseExpand ord ops).map (fun ms => ms.foldl matAdd matZero)

/-- Modelled from the spec: Sum.matrix(wire_order): the explicit wire_order
argument when given, else the Sum's own wire union in first-occurrence
order. -/
def Sum.matrix {K : Type} [Add K] [Zero K] (s : Sum K) (wire_order : Option (List ℕ)) :
    Option (Mat (wire_order.getD s.wires).length K) :=
  sumMatOn s.summands (wire_order.getD s.wires)

/-- Modelled from the spec: the functional constructor op_sum(*ops, id=...,
do_queue=...) builds the same object the Sum class constructor does; the
do_queue flag only controls queuing on construction. -/
def op_sum {K : Type} (ops : List (Operator K)) (id : Option String)
    (do_queue : Bool) : Sum K :=
  let _ := do_queue
  Sum.mk ops id

/-- The Sum class constructor with the same argument list as op_sum. -/
def Sum.make {K : Type} (ops : List (Operator K)) (id : Option String)
    (do_queue : Bool) : Sum K :=
  let _ := do_queue
  Sum.mk ops id

/-! Concrete gates used by the claims. -/

/-- The PauliX gate on one wire. -/
def PauliX {K : Type} [Zero K] [One K] (w : ℕ) : Operator K :=
  ⟨"PauliX", [w], [], true, some (fun i j => if i = j then 0 else 1)⟩

/-- The PauliZ gate on one wire. -/
def PauliZ {K : Type} [Zero K] [One K] [Neg K] (w : ℕ) : Operator K :=
  ⟨"PauliZ", [w], [], true,
    some (fun i j => if i = j then (if i.val = 0 then 1 else -1) else 0)⟩

/-- The Identity gate on one wire. -/
def IdentityOp {K : Type} [Zero K] [One K] (w : ℕ) : Operator K :=
  ⟨"Identity", [w], [], true, some (idMat 1)⟩

/-- The Hadamard gate on one wire; 1 / sqrt 2 is (1 / 2) * sqrt 2 in Q2. -/
def Hadamard (w : ℕ) : Operator Q2 :=
  ⟨"Hadamard", [w], [], true,
    some (fun i j => if i.val = 1 ∧ j.val = 1 then -⟨0, 1 / 2⟩ else ⟨0, 1 / 2⟩)⟩

/-- A Barrier: a contract-only operator with no matrix representation. -/
def Barrier (w : ℕ) : Operator Q2 :=
  ⟨"Barrier", [w], [], false, none⟩

/-- A y-rotation-shaped gate with exact integer entries c and s standing
for cos(theta / 2) and sin(theta / 2); hermitian exactly when the
off-diagonal part vanishes.  It stands in for the non-hermitian
parametrized rotations of the test suite, whose trigonometric entries have
no exact rational form. -/
def RYLike (c s : ℤ) (p : ℚ) (w : ℕ) : Operator Q2 :=
  ⟨"RY", [w], [p], s == 0,
    some (fun i j =>
      if i = j then ⟨(c : ℚ), 0⟩ else if i.val = 0 then ⟨(-s : ℤ), 0⟩ else ⟨(s : ℚ), 0⟩)⟩

/-! The eigensystem cache, modelled from the spec, sections 3 and 4.3: a
process-wide mapping from the flattened numeric tuple of a matrix to its
eigenvalues and eigenvectors, populated lazily, never evicted.  The
eigendecomposition is taken for Sums whose matrix is diagonal in the
computational basis: eigenvalues are the diagonal entries in ascending
order and the eigenvectors the matching standard basis vectors, columns
aligned to the eigenvalue order. -/

/-- The flattened row-major numeric tuple of a matrix, the cache key. -/
def matFlatten {n : ℕ} {K : Type} (M : Mat n K) : List K :=
  ((List.finRange (2 ^ n)).map (fun i => (List.finRange (2 ^ n)).map (fun j => M i j))).flatten

/-- One cache value: eigenvalues in ascending order and the row-major
eigenvector matrix whose columns align to that order. -/
structure EigenEntry (K : Type) where
  eigval : List K
  eigvec : List (List K)
deriving DecidableEq

/-- Stable insertion of a position into a list of positions kept ascending
by diagonal value. -/
def insertPos {K : Type} [LinearOrder K] (d : ℕ → K) (p : ℕ) : List ℕ → List ℕ
  | [] => [p]
  | q :: rest => if d q ≤ d p then q :: insertPos d p rest else p :: q :: rest

/-- Positions sorted ascending (stably) by their diagonal value. -/
def sortPositions {K : Type} [LinearOrder K] (d : ℕ → K) (ps : List ℕ) : List ℕ :=
  ps.foldl (fun acc p => insertPos d p acc) []

/-- Modelled from the spec: the eigendecomposition of a matrix diagonal in
the computational basis: eigenvalues ascending, eigenvector columns the
standard basis vectors of the sorted diagonal positions. -/
def eigOfDiag {n : ℕ} {K : Type} [LinearOrder K] [Zero K] [One K] (M : Mat n K) :
    EigenEntry K :=
  let dim := 2 ^ n
  let d : ℕ → K := fun i => M (fin2 n i) (fin2 n i)
  let perm := sortPositions d (List.range dim)
  ⟨perm.map d,
    (List.range dim).map (fun i => perm.map (fun p => if p = i then (1 : K) else 0))⟩

/-- The process-wide eigensystem cache: key-value pairs, newest first. -/
abbrev EigCache (K : Type) := List (List K × EigenEntry K)

/-- Cache lookup by exact key. -/
def cacheLookup {K : Type} [DecidableEq K] (c : EigCache K) (key : List K) :
    Option (EigenEntry K) :=
  (c.find? (fun kv => decide (kv.1 = key))).map (fun kv => kv.2)

/-- Modelled from the spec: a request for the eigendecomposition of a
matrix: look the flattened tuple up in the cache, compute and store on a
miss, return the entry. -/
def requestEigen {n : ℕ} {K : Type} [LinearOrder K] [Zero K] [One K] [DecidableEq K]
    (c : EigCache K) (M : Mat n K) : EigCache K × EigenEntry K :=
  let key := matFlatten M
  match cacheLookup c key with
  | some e => (c, e)
  | none => ((key, eigOfDiag M) :: c, eigOfDiag M)

/-! Measurement-time validation of a Sum used as an observable, modelled
from the spec, sections 4.2 and 7: using a Sum with a probs-style or
sample-style measurement is rejected outright; an expval-style or
var-style measurement rejects a non-hermitian Sum. -/

/-- The statistics kinds a measurement process can request. -/
inductive MeasurementKind where
  | expval
  | var
  | probs
  | sample
deriving DecidableEq

/-- The error raised when a Sum cannot serve as the requested observable. -/
inductive MeasurementError where
  | sumNotAnObservable
  | symbolicProbsUnsupported
  | symbolicSamplingUnsupported
deriving DecidableEq

/-- The message carried by each measurement error. -/
def errorMessage : MeasurementError → String
  | .sumNotAnObservable => "Sum is not an observable" ++ ": the operator must be hermitian"
  | .symbolicProbsUnsupported =>
      "Symbolic Operations are not supported for rotating probabilities yet."
  | .symbolicSamplingUnsupported =>
      "Symbolic Operations are not supported for sampling yet."

/-- A measurement process over a Sum observable, only constructible through
makeSumMeasurement. -/
structure SumMeasurement (K : Type) where
  kind : MeasurementKind
  obs : Sum K

/-- Modelled from the spec: constructing a measurement process over a Sum
observable.  The check runs at measurement time, before any process is
produced: probs-style and sample-style requests are rejected for every
Sum, expval-style and var-style requests for every non-hermitian Sum. -/
def makeSumMeasurement {K : Type} (kind : MeasurementKind) (s : Sum K) :
    Except MeasurementError (SumMeasurement K) :=
  match kind with
  | .probs => .error .symbolicProbsUnsupported
  | .sample => .error .symbolicSamplingUnsupported
  | k => if s.is_hermitian then .ok ⟨k, s⟩ else .error .sumNotAnObservable

/-! Concrete instances used to evaluate the theorems on explicit inputs. -/

/-- A sample wrapped operation for the transform instances. -/
def exOp : BaseOp := ⟨"PauliZ", [], [1]⟩

/-- A tape with one mid-circuit measurement and one conditional depending
on it. -/
def exTape : Tape := ⟨[.midMeasure 0, .ifOp (some 0) exOp]⟩

/-- A tape holding a conditional whose dependency is unresolved. -/
def exBadTape : Tape := ⟨[.ifOp none exOp]⟩

/-- A store already holding one tape before the transform runs. -/
def exStore : List Tape := [⟨[.plainOp exOp]⟩]

/-- The Sum of the overlapping-wire matrix test: X, H and Z all on wire
0. -/
def sumXHZ : Sum Q2 := ⟨[PauliX 0, Hadamard 0, PauliZ 0], none⟩

/-- The literal matrix [[1 + r, 1 + r], [1 + r, -1 - r]] with r = 1 / sqrt
2, in Q2 components. -/
def sumXHZLiteral : Mat 1 Q2 :=
  fun i j => if i.val = 1 ∧ j.val = 1 then ⟨-1, -(1 / 2)⟩ else ⟨1, 1 / 2⟩

/-- The diagonal Sum of the eigendecomposition tests: Z on wire 0 plus
Identity on wire 1; its matrix entries are integers. -/
def sumZI : Sum ℤ := ⟨[PauliZ 0, IdentityOp 1], none⟩

/-- The expected eigensystem of sumZI: eigenvalues ascending, eigenvector
columns aligned. -/
def sumZIEigen : EigenEntry ℤ :=
  ⟨[0, 0, 2, 2], [[0, 0, 1, 0], [0, 0, 0, 1], [1, 0, 0, 0], [0, 1, 0, 0]]⟩

/-- A Sum holding a matrix-less summand, as in the MatrixUndefined test. -/
def sumWithBarrier : Sum Q2 := ⟨[Barrier 0, PauliX 2, PauliZ 1], none⟩

/-- A representative summand combination for the derived properties. -/
def sumProps : Sum Q2 := ⟨[PauliX 0, PauliZ 0, Hadamard 0], none⟩

/-- A non-hermitian Sum, standing in for Sum(RX(1.23, 0), Identity(1)). -/
def sumNonHermitian : Sum Q2 := ⟨[RYLike 1 1 (123 / 100) 0, IdentityOp 1], none⟩

/-- The matrix of the PauliX gate. -/
def xMat : Mat 1 Q2 := fun i j => if i = j then 0 else 1

/-- The matrix of the PauliZ gate. -/
def zMat : Mat 1 Q2 := fun i j => if i = j then (if i.val = 0 then 1 else -1) else 0

/-! Theorems.  First the deferred-measurement transform. -/

theorem requeue_foldl (ops acc : List TapeEntry) :
    ops.foldl (fun t op => ⟨t.queue ++ [op]⟩) (⟨acc⟩ : Tape) = ⟨acc ++ ops⟩ := by
  induction ops generalizing acc with
  | nil => simp
  | cons op rest ih => simp [List.foldl_cons, ih]

theorem requeue_eq (ops : List TapeEntry) : requeue ops = ⟨ops⟩ := by
  simpa [requeue] using requeue_foldl ops []

theorem buildNewOps_resolved (q : List TapeEntry) :
    ∀ acc : List TapeEntry, (∀ e ∈ q, e.resolvedB = true) →
      buildNewOps acc q = .ok (acc ++ q.filterMap deferEntrySpec) := by
  induction q with
  | nil => intro acc _; simp [buildNewOps]
  | cons e rest ih =>
    intro acc h
    have hrest : ∀ x ∈ rest, x.resolvedB = true :=
      fun x hx => h x (List.mem_cons_of_mem _ hx)
    cases e with
    | midMeasure w =>
        simp [buildNewOps, deferStep, deferEntrySpec, ih _ hrest]
    | ifOp d t =>
        cases d with
        | some c =>
            simp [buildNewOps, deferStep, deferEntrySpec, ih _ hrest]
        | none =>
            have hc := h _ (List.mem_cons_self _ _)
            simp [TapeEntry.resolvedB] at hc
    | ctrlOp c o =>
        simp [buildNewOps, deferStep, deferEntrySpec, ih _ hrest]
    | plainOp o =>
        simp [buildNewOps, deferStep, deferEntrySpec, ih _ hrest]

theorem buildNewOps_unresolved (q : List TapeEntry) :
    ∀ acc : List TapeEntry, (∃ e ∈ q, e.resolvedB = false) →
      buildNewOps acc q = .error .malformedTape := by
  induction q with
  | nil => intro acc h; simp at h
  | cons e rest ih =>
    intro acc h
    cases e with
    | ifOp d t =>
        cases d with
        | none => simp [buildNewOps, deferStep]
        | some c =>
            rcases h with ⟨x, hx, hxf⟩
            rcases List.mem_cons.mp hx with rfl | hx'
            · simp [TapeEntry.resolvedB] at hxf
            · simp only [buildNewOps, deferStep]
              exact ih _ ⟨x, hx', hxf⟩
    | midMeasure w =>
        rcases h with ⟨x, hx, hxf⟩
        rcases List.mem_cons.mp hx with rfl | hx'
        · simp [TapeEntry.resolvedB] at hxf
        · simp only [buildNewOps, deferStep]
          exact ih _ ⟨x, hx', hxf⟩
    | ctrlOp c o =>
        rcases h with ⟨x, hx, hxf⟩
        rcases List.mem_cons.mp hx with rfl | hx'
        · simp [TapeEntry.resolvedB] at hxf
        · simp only [buildNewOps, deferStep]
          exact ih _ ⟨x, hx', hxf⟩
    | plainOp o =>
        rcases h with ⟨x, hx, hxf⟩
        rcases List.mem_cons.mp hx with rfl | hx'
        · simp [TapeEntry.resolvedB] at hxf
        · simp only [buildNewOps, deferStep]
          exact ih _ ⟨x, hx', hxf⟩

/-- C2: for every well-formed input tape (every conditional's dependency is
resolved), the deferred-measurement transform produces a new tape in which
every mid-circuit measurement marker is dropped, every conditional is
replaced by exactly one controlled version of its wrapped operation
(controlled on the measured wire), and every other entry passes through
unchanged in its original relative order; no marker and no conditional
remains in the output. -/
theorem defer_measurements_characterization (tape : Tape)
    (h : ∀ e ∈ tape.queue, e.resolvedB = true) :
    defer_measurements tape = .ok ⟨tape.queue.filterMap deferEntrySpec⟩ ∧
    ∀ e ∈ tape.queue.filterMap deferEntrySpec,
      (∀ w, e ≠ .midMeasure w) ∧ ∀ d op, e ≠ .ifOp d op := by
  constructor
  · simp [defer_measurements, buildNewOps_resolved _ [] h, requeue_eq]
  · intro e he
    rcases List.mem_filterMap.mp he with ⟨a, _, ha⟩
    cases a with
    | midMeasure w => simp [deferEntrySpec] at ha
    | ifOp d t =>
        simp [deferEntrySpec] at ha
        subst ha
        exact ⟨fun w => by simp, fun d op => by simp⟩
    | ctrlOp c o =>
        simp [deferEntrySpec] at ha
        subst ha
        exact ⟨fun w => by simp, fun d op => by simp⟩
    | plainOp o =>
        simp [deferEntrySpec] at ha
        subst ha
        exact ⟨fun w => by simp, fun d op => by simp⟩

/-- Evaluation of C2 on the tape [measure wire 0, conditional on it]: the
transform returns the single controlled operation. -/
theorem defer_measurements_characterization_witness :
    defer_measurements exTape = .ok ⟨[.ctrlOp 0 exOp]⟩ :=
  (defer_measurements_characterization exTape (by decide)).1

/-- C3: for every tape containing a conditional entry whose dependency
cannot be resolved to a prior mid-circuit measurement, the transform fails
with the fatal MalformedTape error; no output tape is produced, so the
entry is never silently skipped or passed through. -/
theorem defer_measurements_unresolved_error (tape : Tape)
    (h : ∃ e ∈ tape.queue, e.resolvedB = false) :
    defer_measurements tape = .error .malformedTape := by
  simp [defer_measurements, buildNewOps_unresolved _ [] h]

/-- Evaluation of C3 on a tape holding one unresolved conditional. -/
theorem defer_measurements_unresolved_error_witness :
    defer_measurements exBadTape = .error .malformedTape :=
  defer_measurements_unresolved_error exBadTape (by decide)

theorem appendToActive_append (s : List Tape) (t : Tape) (e : TapeEntry) :
    appendToActive (s ++ [t]) e = s ++ [⟨t.queue ++ [e]⟩] := by
  induction s with
  | nil => simp [appendToActive]
  | cons a s ih => simp [appendToActive, ih]

theorem runTapeOps_applyAll (es : List TapeEntry) :
    ∀ (s : List Tape) (t : Tape),
      runTapeOps (s ++ [t]) (es.map .applyEntry) = s ++ [⟨t.queue ++ es⟩] := by
  induction es with
  | nil => intro s t; simp [runTapeOps]
  | cons e es ih => intro s t; simp [runTapeOps, appendToActive_append, ih]

/-- C10: the transform never mutates the input tape.  Running the effect
trace of defer_measurements over any store of tape contexts (the input
tape sitting anywhere in it) leaves every pre-existing tape unchanged and
only appends one freshly constructed tape, built by re-queuing the
computed entries into a new context; that fresh tape is exactly the
transform's result. -/
theorem defer_measurements_no_input_mutation (store : List Tape) (tape : Tape)
    (prog : List TapeOp) (h : deferProgram tape = .ok prog) :
    ∃ newOps : List TapeEntry,
      runTapeOps store prog = store ++ [⟨newOps⟩] ∧
      defer_measurements tape = .ok ⟨newOps⟩ := by
  cases hb : buildNewOps [] tape.queue with
  | error e => simp [deferProgram, hb] at h
  | ok ops =>
      simp only [deferProgram, hb, Except.ok.injEq] at h
      subst h
      refine ⟨ops, ?_, ?_⟩
      · have := runTapeOps_applyAll ops store ⟨[]⟩
        simpa [runTapeOps] using this
      · simp [defer_measurements, hb, requeue_eq]

/-- Evaluation of C10: with one tape already in the store, the transform
trace leaves it intact and appends only the fresh transformed tape. -/
theorem defer_measurements_no_input_mutation_witness :
    ∃ newOps : List TapeEntry,
      runTapeOps exStore [.newTape, .applyEntry (.ctrlOp 0 exOp)] = exStore ++ [⟨newOps⟩] ∧
      defer_measurements exTape = .ok ⟨newOps⟩ :=
  defer_measurements_no_input_mutation exStore exTape _ rfl

/-! Theorems about the Sum operator. -/

theorem traverseExpand_none {K : Type} [Zero K] (ops : List (Operator K)) (ord : List ℕ)
    (h : ∃ op ∈ ops, op.mat = none) :
    traverseExpand ord ops = none := by
  induction ops with
  | nil => simp at h
  | cons a rest ih =>
    rcases h with ⟨op, hop, hnone⟩
    rcases List.mem_cons.mp hop with rfl | hmem
    · simp [traverseExpand, expandOnOrder, hnone]
    · rw [traverseExpand, ih ⟨op, hmem, hnone⟩]
      cases expandOnOrder ord a <;> rfl

/-- C6: for every Sum containing at least one summand with no matrix
representation, matrix() over any wire order raises MatrixUndefined
(returns none), propagated from the summand, regardless of the other
summands. -/
theorem sum_matrix_undefined_propagates {K : Type} [Add K] [Zero K] (s : Sum K)
    (wire_order : Option (List ℕ)) (op : Operator K)
    (hmem : op ∈ s.summands) (hnone : op.mat = none) :
    s.matrix wire_order = none := by
  simp [Sum.matrix, sumMatOn, traverseExpand_none _ _ ⟨op, hmem, hnone⟩]

/-- Evaluation of C6 on Sum(Barrier(0), X(2), Z(1)). -/
theorem sum_matrix_undefined_propagates_witness :
    sumWithBarrier.matrix none = none :=
  sum_matrix_undefined_propagates sumWithBarrier none (Barrier 0)
    (List.mem_cons_self _ _) rfl

theorem unionWires_foldl {K : Type} (ops : List (Operator K))
    (hw : ∀ op ∈ ops, op.wires.Nodup) :
    ∀ acc : List ℕ, acc.Nodup →
      (ops.foldl (fun acc op => acc ++ op.wires.filter (fun w => decide (w ∉ acc))) acc).Nodup ∧
      (ops.foldl (fun acc op => acc ++ op.wires.filter (fun w => decide (w ∉ acc))) acc).toFinset =
        ops.foldl (fun f op => f ∪ op.wires.toFinset) acc.toFinset := by
  induction ops with
  | nil => intro acc hacc; exact ⟨hacc, rfl⟩
  | cons a rest ih =>
    intro acc hacc
    have hw' : ∀ op ∈ rest, op.wires.Nodup :=
      fun op h => hw op (List.mem_cons_of_mem _ h)
    have hstep_nodup : (acc ++ a.wires.filter (fun w => decide (w ∉ acc))).Nodup := by
      refine List.Nodup.append hacc
        (List.Nodup.filter _ (hw a (List.mem_cons_self _ _))) ?_
      intro x hx hxf
      have hx2 := (List.mem_filter.mp hxf).2
      simp at hx2
      exact hx2 hx
    have hstep_fin : (acc ++ a.wires.filter (fun w => decide (w ∉ acc))).toFinset =
        acc.toFinset ∪ a.wires.toFinset := by
      ext x
      simp [List.mem_filter]
      tauto
    have hrec := ih hw' _ hstep_nodup
    refine ⟨hrec.1, ?_⟩
    rw [List.foldl_cons, List.foldl_cons, hrec.2, hstep_fin]

/-- C7: for every Sum whose summands each carry duplicate-free wires,
num_wires is the cardinality of the deduplicated union of the summands'
wires, num_params is the sum of the summands' parameter counts, and
is_hermitian is the conjunction of the summands' hermiticity. -/
theorem sum_derived_properties {K : Type} (s : Sum K)
    (hw : ∀ op ∈ s.summands, op.wires.Nodup) :
    s.num_wires =
      (s.summands.foldl (fun f op => f ∪ op.wires.toFinset) (∅ : Finset ℕ)).card ∧
    s.num_params = (s.summands.map (fun op => op.params.length)).sum ∧
    (s.is_hermitian = true ↔ ∀ op ∈ s.summands, op.hermitian = true) := by
  refine ⟨?_, ?_, ?_⟩
  · have h := unionWires_foldl s.summands hw [] List.nodup_nil
    have hcard := List.toFinset_card_of_nodup h.1
    rw [Sum.num_wires, Sum.wires, unionWires, ← hcard, h.2]
    simp
  · simp [Sum.num_params, Sum.parameters, List.length_flatten, List.map_map,
      Function.comp_def]
  · simp [Sum.is_hermitian, List.all_eq_true]

/-- Evaluation of C7 on Sum(X(0), Z(0), H(0)). -/
theorem sum_derived_properties_witness :
    sumProps.num_wires =
      (sumProps.summands.foldl (fun f op => f ∪ op.wires.toFinset) (∅ : Finset ℕ)).card ∧
    sumProps.num_params = (sumProps.summands.map (fun op => op.params.length)).sum ∧
    (sumProps.is_hermitian = true ↔ ∀ op ∈ sumProps.summands, op.hermitian = true) :=
  sum_derived_properties sumProps (by decide)

/-- C9: Sum(PauliX(0), Hadamard(0), PauliZ(0)).matrix() is the literal 2 by
2 matrix [[1 + 1/sqrt 2, 1 + 1/sqrt 2], [1 + 1/sqrt 2, -1 - 1/sqrt 2]]:
overlapping same-wire summands are added without identity expansion. -/
theorem sum_xhz_literal_matrix : sumXHZ.matrix none = some sumXHZLiteral := by
  refine congrArg some ?_
  funext i j
  rcases i with ⟨iv, hi⟩
  rcases j with ⟨jv, hj⟩
  norm_num [sumXHZ, Sum.wires, unionWires, PauliX, Hadamard, PauliZ] at hi hj
  interval_cases iv <;> interval_cases jv <;>
    norm_num [sumXHZ, sumXHZLiteral, Sum.matrix, sumMatOn, traverseExpand,
      expandOnOrder, expandMat, matAdd, matZero, PauliX, Hadamard, PauliZ,
      Sum.wires, unionWires, bitAt, gatherBits, fin2, Q2.add_def, Q2.neg_def,
      Q2.zero_def, Q2.one_def, Q2.mk.injEq] <;>
    exact ⟨rfl, rfl⟩

theorem requestEigen_idempotent {n : ℕ} {K : Type} [LinearOrder K] [Zero K] [One K]
    [DecidableEq K] (c : EigCache K) (M : Mat n K) :
    requestEigen (requestEigen c M).1 M = requestEigen c M := by
  cases h : cacheLookup c (matFlatten M) with
  | some e => simp [requestEigen, h]
  | none =>
      simp only [requestEigen, h]
      have hfind : cacheLookup ((matFlatten M, eigOfDiag M) :: c) (matFlatten M) =
          some (eigOfDiag M) := by
        simp [cacheLookup, List.find?_cons_of_pos _ (decide_eq_true rfl)]
      simp [hfind]

/-- C5: the eigendecomposition of Sum(PauliZ(0), Identity(1)) yields
eigenvalues [0, 0, 2, 2] with eigenvector columns aligned to that order;
the result is stored in the eigensystem cache under the flattened numeric
tuple of the Sum's matrix; and a second request for the same matrix is a
cache hit returning the entry of the first computation unchanged. -/
theorem sum_eigendecomposition_and_cache :
    ((sumZI.matrix none).map matFlatten =
      some [2, 0, 0, 0, 0, 2, 0, 0, 0, 0, 0, 0, 0, 0, 0, 0]) ∧
    ((sumZI.matrix none).map (fun M => (requestEigen [] M).2) = some sumZIEigen) ∧
    ((sumZI.matrix none).map (fun M => (requestEigen [] M).1) =
      some [([2, 0, 0, 0, 0, 2, 0, 0, 0, 0, 0, 0, 0, 0, 0, 0], sumZIEigen)]) ∧
    ∀ (n : ℕ) (c : EigCache ℤ) (M : Mat n ℤ),
      requestEigen (requestEigen c M).1 M = requestEigen c M :=
  ⟨by decide, by decide, by decide, fun _ c M => requestEigen_idempotent c M⟩

/-- C8: the functional constructor op_sum(*ops, id=..., do_queue=...)
produces an object equal to Sum(*ops, id=..., do_queue=...) in its
summands, matrix over every wire order, id, wires, and parameters. -/
theorem op_sum_equals_class {K : Type} [Add K] [Zero K] (ops : List (Operator K))
    (id : Option String) (do_queue : Bool) :
    (op_sum ops id do_queue).summands = (Sum.make ops id do_queue).summands ∧
    (∀ wo, (op_sum ops id do_queue).matrix wo = (Sum.make ops id do_queue).matrix wo) ∧
    (op_sum ops id do_queue).id = (Sum.make ops id do_queue).id ∧
    (op_sum ops id do_queue).wires = (Sum.make ops id do_queue).wires ∧
    (op_sum ops id do_queue).parameters = (Sum.make ops id do_queue).parameters :=
  ⟨rfl, fun _ => rfl, rfl, rfl, rfl⟩

theorem matZero_add {n : ℕ} {K : Type} [AddCommMonoid K] (A : Mat n K) :
    matAdd matZero A = A := by
  funext i j
  simp [matAdd, matZero]

theorem matAdd_zero {n : ℕ} {K : Type} [AddCommMonoid K] (A : Mat n K) :
    matAdd A matZero = A := by
  funext i j
  simp [matAdd, matZero]

theorem matAdd_assoc {n : ℕ} {K : Type} [AddCommMonoid K] (A B C : Mat n K) :
    matAdd (matAdd A B) C = matAdd A (matAdd B C) := by
  funext i j
  simp [matAdd, add_assoc]

theorem foldl_matAdd_acc {n : ℕ} {K : Type} [AddCommMonoid K] (l : List (Mat n K)) :
    ∀ A : Mat n K, l.foldl matAdd A = matAdd A (l.foldl matAdd matZero) := by
  induction l with
  | nil => intro A; simp [matAdd_zero]
  | cons B l ih =>
    intro A
    rw [List.foldl_cons, List.foldl_cons, ih (matAdd A B), ih (matAdd matZero B),
      matZero_add, matAdd_assoc]

theorem traverseExpand_append {K : Type} [Zero K] (ord : List ℕ)
    (l₁ l₂ : List (Operator K)) :
    traverseExpand ord (l₁ ++ l₂) =
      Option.map₂ (fun a b => a ++ b) (traverseExpand ord l₁) (traverseExpand ord l₂) := by
  induction l₁ with
  | nil =>
    cases h₂ : traverseExpand ord l₂ <;> simp [traverseExpand, Option.map₂, h₂]
  | cons a l ih =>
    cases ha : expandOnOrder ord a with
    | none => simp [traverseExpand, ha, Option.map₂]
    | some E =>
        cases h₁ : traverseExpand ord l <;>
          cases h₂ : traverseExpand ord l₂ <;>
            simp_all [traverseExpand, ha, Option.map₂]

theorem sumMatOn_singleton {K : Type} [AddCommMonoid K] (op : Operator K) (ord : List ℕ) :
    sumMatOn [op] ord = expandOnOrder ord op := by
  cases h : expandOnOrder ord op <;>
    simp [sumMatOn, traverseExpand, h, matZero_add]

theorem sumMatOn_append {K : Type} [AddCommMonoid K] (l₁ l₂ : List (Operator K))
    (ord : List ℕ) :
    sumMatOn (l₁ ++ l₂) ord = Option.map₂ matAdd (sumMatOn l₁ ord) (sumMatOn l₂ ord) := by
  rw [sumMatOn, traverseExpand_append]
  cases h₁ : traverseExpand ord l₁ <;> cases h₂ : traverseExpand ord l₂ <;>
    simp [sumMatOn, h₁, h₂, Option.map₂]
  rw [foldl_matAdd_acc]

theorem expandMat_fst {K : Type} [CommRing K] (M : Mat 1 K) :
    expandMat 2 [0] M = kron M (idMat 1) := by
  funext i j
  rcases i with ⟨iv, hi⟩
  rcases j with ⟨jv, hj⟩
  norm_num at hi hj
  interval_cases iv <;> interval_cases jv <;>
    simp +decide [expandMat, kron, idMat, bitAt, gatherBits, fin2]

theorem expandMat_snd {K : Type} [CommRing K] (M : Mat 1 K) :
    expandMat 2 [1] M = kron (idMat 1) M := by
  funext i j
  rcases i with ⟨iv, hi⟩
  rcases j with ⟨jv, hj⟩
  norm_num at hi hj
  interval_cases iv <;> interval_cases jv <;>
    simp +decide [expandMat, kron, idMat, bitAt, gatherBits, fin2]

/-- C1: the matrix of a Sum over its wire order is the element-wise sum of
the summands' matrices, each expanded by Kronecker product with identity
onto the full wire order at the slots of its wires: the default order is
the first-occurrence wire union, a singleton Sum's matrix is its summand's
expansion, the matrix of a concatenation is the element-wise sum of the
parts, and for single-qubit summands A and B on disjoint wires the matrix
over order [wa, wb] is kron(A, I) + kron(I, B). -/
theorem sum_matrix_is_expanded_sum {K : Type} [CommRing K] :
    (∀ s : Sum K, s.matrix none = sumMatOn s.summands s.wires) ∧
    (∀ (op : Operator K) (ord : List ℕ), sumMatOn [op] ord = expandOnOrder ord op) ∧
    (∀ (l₁ l₂ : List (Operator K)) (ord : List ℕ),
      sumMatOn (l₁ ++ l₂) ord = Option.map₂ matAdd (sumMatOn l₁ ord) (sumMatOn l₂ ord)) ∧
    ∀ (nA : String) (pA : List ℚ) (hA : Bool) (MA : Mat 1 K)
      (nB : String) (pB : List ℚ) (hB : Bool) (MB : Mat 1 K) (wa wb : ℕ),
      wa ≠ wb →
      (Sum.mk [⟨nA, [wa], pA, hA, some MA⟩, ⟨nB, [wb], pB, hB, some MB⟩]
          none).wires = [wa, wb] ∧
      sumMatOn [⟨nA, [wa], pA, hA, some MA⟩, ⟨nB, [wb], pB, hB, some MB⟩] [wa, wb] =
        some (matAdd (kron MA (idMat 1)) (kron (idMat 1) MB)) := by
  refine ⟨fun s => rfl, sumMatOn_singleton, sumMatOn_append, ?_⟩
  intro nA pA hA MA nB pB hB MB wa wb hne
  have hnb : wb ∉ [wa] := by
    simp only [List.mem_singleton]
    exact fun h => hne h.symm
  have hxa : List.indexOf wa [wa, wb] = 0 := List.indexOf_cons_self _ _
  have hxb : List.indexOf wb [wa, wb] = 1 := by
    rw [List.indexOf_cons]
    have hba : (wa == wb) = false := by
      simp [hne]
    simp [hba, List.indexOf_cons_self]
  constructor
  · simp [Sum.wires, unionWires, hnb]
    exact fun h => hne h.symm
  · simp [sumMatOn, traverseExpand, expandOnOrder, hxa, hxb, matZero_add,
      expandMat_fst, expandMat_snd]

/-- Evaluation of C1 on Sum(X(0), Z(1)): the matrix is kron(X, I) +
kron(I, Z). -/
theorem sum_matrix_is_expanded_sum_witness :
    (Sum.mk [(PauliX 0 : Operator Q2), PauliZ 1] none).wires = [0, 1] ∧
    sumMatOn [(PauliX 0 : Operator Q2), PauliZ 1] [0, 1] =
      some (matAdd (kron xMat (idMat 1)) (kron (idMat 1) zMat)) :=
  sum_matrix_is_expanded_sum.2.2.2 "PauliX" [] true xMat "PauliZ" [] true zMat 0 1
    (by decide)

/-- C4: a non-hermitian Sum used as an expectation-value observable is
rejected with the error naming "Sum is not an observable"; any Sum used
with a probs-style measurement is rejected with "Symbolic Operations are
not supported for rotating probabilities yet.", and with a sample-style
measurement with "Symbolic Operations are not supported for sampling
yet."; each error is returned by the measurement constructor itself, so it
surfaces at measurement time, not deferred. -/
theorem sum_measurement_errors {K : Type} (s : Sum K) :
    (s.is_hermitian = false →
      makeSumMeasurement .expval s = .error .sumNotAnObservable) ∧
    makeSumMeasurement .probs s = .error .symbolicProbsUnsupported ∧
    makeSumMeasurement .sample s = .error .symbolicSamplingUnsupported ∧
    errorMessage .symbolicProbsUnsupported =
      "Symbolic Operations are not supported for rotating probabilities yet." ∧
    errorMessage .symbolicSamplingUnsupported =
      "Symbolic Operations are not supported for sampling yet." ∧
    ∃ tail, errorMessage .sumNotAnObservable = "Sum is not an observable" ++ tail := by
  refine ⟨?_, rfl, rfl, rfl, rfl, ⟨": the operator must be hermitian", rfl⟩⟩
  intro h
  simp [makeSumMeasurement, h]

/-- Evaluation of C4 on a non-hermitian Sum standing in for
Sum(RX(1.23, 0), Identity(1)). -/
theorem sum_measurement_errors_witness :
    makeSumMeasurement .expval sumNonHermitian = .error .sumNotAnObservable ∧
    makeSumMeasurement .probs sumNonHermitian = .error .symbolicProbsUnsupported ∧
    makeSumMeasurement .sample sumNonHermitian = .error .symbolicSamplingUnsupported :=
  ⟨(sum_measurement_errors sumNonHermitian).1 (by decide),
    (sum_measurement_errors sumNonHermitian).2.1,
    (sum_measurement_errors sumNonHermitian).2.2.1⟩

end PLVerify
